import Mathlib

/-!
Verification of the procplay playtime-tracking daemon (src/main.rs).

The daemon's state is an in-memory map `active : pid -> (name, started)`
(the spec's OpenSessionTable) together with the SQLite `sessions` table,
modelled as a list of rows.  One iteration of the polling loop (`tick`)
first opens a session for every observed pid not in `active`, then closes
every pid of `active` that is no longer observed, exactly as lines 82-109
of src/main.rs.  Timestamps are modelled as natural-number epoch seconds,
one timestamp per tick (the spec's "tick N's timestamp"); SQL NULL is
`Option.none`.
-/

namespace ProcPlay

/-- A row of the `sessions` table created in `init_db`:
`id INTEGER PRIMARY KEY, path TEXT NOT NULL, pid INTEGER NOT NULL,
started TEXT NOT NULL, ended TEXT` (NULL modelled as `none`). -/
structure Session where
  id : Nat
  path : String
  pid : Int
  started : Nat
  ended : Option Nat
  deriving DecidableEq, Repr

/-- The daemon's state inside `run_daemon`: the `active` HashMap
(pid -> (binary name, start timestamp)), the store, and the id the
store will assign to the next inserted row. -/
structure DaemonState where
  active : List (Int × String × Nat)
  store : List Session
  nextId : Nat
  deriving DecidableEq, Repr

/-- `active.contains_key(pid)` on the HashMap of `run_daemon`. -/
def activeHas (active : List (Int × String × Nat)) (p : Int) : Bool :=
  active.any (fun e => decide (e.1 = p))

/-- `seen_pids.iter().any(|(p, _)| *p == pid)` from line 98 of main.rs. -/
def seenHas (seen : List (Int × String)) (p : Int) : Bool :=
  seen.any (fun q => decide (q.1 = p))

/-- One step of the "detect new" loop (main.rs lines 83-94): if the pid is
not an `active` key, INSERT a fresh row (the store assigns `nextId`) and
record the pid in `active`. -/
def openOne (now : Nat) (st : DaemonState) (q : Int × String) : DaemonState :=
  if activeHas st.active q.1 then st
  else
    { active := (q.1, q.2, now) :: st.active,
      store := st.store ++
        [{ id := st.nextId, path := q.2, pid := q.1, started := now, ended := none }],
      nextId := st.nextId + 1 }

/-- The whole "detect new" loop over the observation list. -/
def openPhase (now : Nat) (seen : List (Int × String)) (st : DaemonState) : DaemonState :=
  seen.foldl (openOne now) st

/-- The store write of the close path, exactly the SQL of main.rs line 102:
`UPDATE sessions SET ended = ?1 WHERE pid = ?2 AND ended IS NULL`. -/
def closeSession (p : Int) (now : Nat) (store : List Session) : List Session :=
  store.map (fun r => if r.pid = p ∧ r.ended = none then { r with ended := some now } else r)

/-- One step of the "detect ended" loop (main.rs lines 97-109): a pid of
`prev_pids` that is not observed is removed from `active` and its open
rows are closed via `closeSession`. -/
def closeOne (seen : List (Int × String)) (now : Nat) (st : DaemonState) (p : Int) : DaemonState :=
  if seenHas seen p then st
  else
    { st with active := st.active.filter (fun e => decide (e.1 ≠ p)),
              store := closeSession p now st.store }

/-- The whole "detect ended" loop: `prev_pids` is the key list of `active`
collected after the open loop (main.rs line 96). -/
def closePhase (now : Nat) (seen : List (Int × String)) (st : DaemonState) : DaemonState :=
  (st.active.map Prod.fst).foldl (closeOne seen now) st

/-- One iteration of the polling loop of `run_daemon`: detect new, then
detect ended. -/
def tick (seen : List (Int × String)) (now : Nat) (st : DaemonState) : DaemonState :=
  closePhase now seen (openPhase now seen st)

/-- The number of rows of the store with the given pid and `ended` NULL. -/
def openCount (store : List Session) (p : Int) : Nat :=
  (store.filter (fun r => decide (r.pid = p ∧ r.ended = none))).length

/-- Closing several pids at once; used to describe the accumulated effect
of the close loop on the store. -/
def closeAll (toClose : List Int) (now : Nat) (store : List Session) : List Session :=
  store.map (fun r => if r.pid ∈ toClose ∧ r.ended = none then { r with ended := some now } else r)

/-- The signed duration `strftime (ended) - strftime (started)` of a row,
as summed by the report query. -/
def duration (r : Session) : Int := (r.ended.getD 0 : Int) - (r.started : Int)

/-- The `WHERE ended IS NOT NULL` clause of the report query. -/
def closedRows (store : List Session) : List Session :=
  store.filter (fun r => decide (r.ended ≠ none))

/-- The report query of main.rs lines 118-123:
`SELECT path, SUM(strftime ended - strftime started) FROM sessions
WHERE ended IS NOT NULL GROUP BY path`.  The GROUP BY is modelled as
deduplication of the paths of the closed rows, each group summed. -/
def aggregate_totals (store : List Session) : List (String × Int) :=
  ((closedRows store).map (fun r => r.path)).dedup.map
    (fun n => (n, (((closedRows store).filter (fun r => decide (r.path = n))).map duration).sum))

/-- Reading one program's entry from the report mapping. -/
def lookupTotal (totals : List (String × Int)) (n : String) : Option Int :=
  (totals.find? (fun e => decide (e.1 = n))).map Prod.snd

/-- Modelled from the spec: "the sum of (ended_at − started_at) over all
sessions where ended_at is present" for one program name, written directly
as a filter over the raw store.  Compared with `aggregate_totals`. -/
def closedTotal (store : List Session) (n : String) : Int :=
  ((store.filter (fun r => decide (r.path = n ∧ r.ended ≠ none))).map duration).sum

/-- The hours/minutes/seconds split of the report (main.rs lines 132-134),
with Rust's truncating `i64` division and remainder. -/
def format_hms (secs : Int) : Int × Int × Int :=
  (secs.tdiv 3600, (secs.tmod 3600).tdiv 60, secs.tmod 60)

/-- The branch condition of `main` (main.rs line 144):
`args.len() > 1 && args[1] == "report"`; `true` selects the report path,
`false` runs the daemon exactly as with no arguments. -/
def selectsReport (args : List String) : Bool :=
  decide (args.length > 1) && (args.getD 1 "" == "report")

/-- Fallible variant of `openOne`: the INSERT of main.rs line 86 returns
`Err` for pids in `failing`; the source calls `.unwrap()` on it, which
aborts the whole process, modelled by `none`. -/
def openOneF (failing : List Int) (now : Nat) (st : DaemonState) (q : Int × String) :
    Option DaemonState :=
  if activeHas st.active q.1 then some st
  else if q.1 ∈ failing then none
  else some (openOne now st q)

/-- Fallible variant of `closeOne`: the UPDATE of main.rs line 101 returns
`Err` for pids in `failing`; `.unwrap()` aborts, modelled by `none`. -/
def closeOneF (failing : List Int) (seen : List (Int × String)) (now : Nat)
    (st : DaemonState) (p : Int) : Option DaemonState :=
  if seenHas seen p then some st
  else if p ∈ failing then none
  else some (closeOne seen now st p)

/-- One iteration of the polling loop with fallible store writes: a `none`
from any write (an `.unwrap()` panic) aborts the whole iteration and the
process, losing the processing of every remaining pid. -/
def tickF (failing : List Int) (seen : List (Int × String)) (now : Nat)
    (st : DaemonState) : Option DaemonState := do
  let st1 ← seen.foldlM (openOneF failing now) st
  (st1.active.map Prod.fst).foldlM (closeOneF failing seen now) st1

/-- The empty daemon start state: fresh `active` map, empty store. -/
def st0 : DaemonState := { active := [], store := [], nextId := 0 }

/-- The `active` map mirrors the store's open rows: every pid has exactly
one open row when it is a key of `active` and none otherwise.  This holds
throughout a daemon run started with an empty store. -/
def mirrors (st : DaemonState) : Prop :=
  ∀ p, openCount st.store p = if activeHas st.active p then 1 else 0

/-! ### Basic list lemmas used throughout -/

theorem map_id_on {α : Type _} (f : α → α) :
    ∀ l : List α, (∀ a ∈ l, f a = a) → l.map f = l := by
  intro l h
  induction l with
  | nil => rfl
  | cons a t ih =>
    simp only [List.map_cons]
    rw [h a (List.mem_cons_self a t), ih (fun b hb => h b (List.mem_cons_of_mem a hb))]

theorem map_congr_on {α β : Type _} (f g : α → β) :
    ∀ l : List α, (∀ a ∈ l, f a = g a) → l.map f = l.map g := by
  intro l h
  induction l with
  | nil => rfl
  | cons a t ih =>
    simp only [List.map_cons]
    rw [h a (List.mem_cons_self a t), ih (fun b hb => h b (List.mem_cons_of_mem a hb))]

theorem drop_map_append {α β : Type _} (f : α → β) (a b : List α) :
    ((a ++ b).map f).drop a.length = b.map f := by
  rw [List.map_append, ← List.length_map a f, List.drop_left]

theorem activeHas_of_mem (l : List (Int × String × Nat)) (e : Int × String × Nat)
    (he : e ∈ l) : activeHas l e.1 = true := by
  rw [activeHas]
  exact List.any_eq_true.mpr ⟨e, he, by simp⟩

theorem seenHas_of_mem (seen : List (Int × String)) (q : Int × String)
    (hq : q ∈ seen) : seenHas seen q.1 = true := by
  rw [seenHas]
  exact List.any_eq_true.mpr ⟨q, hq, by simp⟩

theorem activeHas_filter (q : Int × String × Nat → Bool) :
    ∀ (l : List (Int × String × Nat)) (p : Int),
      activeHas (l.filter q) p = l.any (fun e => q e && decide (e.1 = p)) := by
  intro l
  induction l with
  | nil => intro p; rfl
  | cons e t ih =>
    intro p
    simp only [List.filter_cons, List.any_cons]
    by_cases h : q e = true
    · rw [if_pos h]
      simp only [activeHas, List.any_cons] at ih ⊢
      rw [ih, h, Bool.true_and]
    · rw [if_neg h, ih]
      have h' : q e = false := by simpa using h
      rw [h', Bool.false_and, Bool.false_or]

/-! ### Open phase lemmas -/

theorem activeHas_openOne (now : Nat) (st : DaemonState) (q : Int × String) (p : Int) :
    activeHas (openOne now st q).active p = (activeHas st.active p || decide (q.1 = p)) := by
  by_cases h : activeHas st.active q.1 = true
  · rw [openOne, if_pos h]
    by_cases hqp : q.1 = p
    · rw [← hqp, h]
      simp
    · simp [hqp]
  · rw [openOne, if_neg h]
    simp only [activeHas, List.any_cons]
    rw [Bool.or_comm]

theorem activeHas_openPhase (now : Nat) :
    ∀ (seen : List (Int × String)) (st : DaemonState) (p : Int),
      activeHas (openPhase now seen st).active p = (activeHas st.active p || seenHas seen p) := by
  intro seen
  induction seen with
  | nil => intro st p; simp [openPhase, seenHas]
  | cons q rest ih =>
    intro st p
    have hstep : openPhase now (q :: rest) st = openPhase now rest (openOne now st q) := rfl
    rw [hstep, ih, activeHas_openOne]
    simp [seenHas, List.any_cons, Bool.or_assoc]

theorem openPhase_store_ext (now : Nat) :
    ∀ (seen : List (Int × String)) (st : DaemonState),
      ∃ ext, (openPhase now seen st).store = st.store ++ ext ∧
        ∀ r ∈ ext, r.started = now ∧ r.ended = none ∧ seenHas seen r.pid = true := by
  intro seen
  induction seen with
  | nil => intro st; exact ⟨[], by simp [openPhase], by simp⟩
  | cons q rest ih =>
    intro st
    have hstep : openPhase now (q :: rest) st = openPhase now rest (openOne now st q) := rfl
    rw [hstep]
    by_cases h : activeHas st.active q.1 = true
    · have hq : openOne now st q = st := by rw [openOne, if_pos h]
      rw [hq]
      obtain ⟨ext, he, hp⟩ := ih st
      refine ⟨ext, he, fun r hr => ⟨(hp r hr).1, (hp r hr).2.1, ?_⟩⟩
      have h2 := (hp r hr).2.2
      simp only [seenHas, List.any_cons] at h2 ⊢
      rw [h2, Bool.or_true]
    · rw [openOne, if_neg h]
      obtain ⟨ext, he, hp⟩ := ih _
      refine ⟨{ id := st.nextId, path := q.2, pid := q.1, started := now, ended := none } :: ext,
        ?_, ?_⟩
      · rw [he]
        simp
      · intro r hr
        rcases List.mem_cons.mp hr with h1 | h2
        · subst h1
          refine ⟨rfl, rfl, ?_⟩
          simp [seenHas]
        · refine ⟨(hp r h2).1, (hp r h2).2.1, ?_⟩
          have h3 := (hp r h2).2.2
          simp only [seenHas, List.any_cons] at h3 ⊢
          rw [h3, Bool.or_true]

theorem openPhase_drop_eq (now : Nat) (seen : List (Int × String)) (st : DaemonState) :
    ∀ ext, (openPhase now seen st).store = st.store ++ ext →
      (openPhase now seen st).store.drop st.store.length = ext := by
  intro ext he
  rw [he, List.drop_left]

theorem openOne_pos (now : Nat) (st : DaemonState) (q : Int × String)
    (h : activeHas st.active q.1 = true) : openOne now st q = st := by
  rw [openOne, if_pos h]

theorem openOne_neg_active (now : Nat) (st : DaemonState) (q : Int × String)
    (h : ¬ activeHas st.active q.1 = true) :
    (openOne now st q).active = (q.1, q.2, now) :: st.active := by
  rw [openOne, if_neg h]

theorem openOne_neg_store (now : Nat) (st : DaemonState) (q : Int × String)
    (h : ¬ activeHas st.active q.1 = true) :
    (openOne now st q).store = st.store ++
      [{ id := st.nextId, path := q.2, pid := q.1, started := now, ended := none }] := by
  rw [openOne, if_neg h]

/-- The open loop appends a block `ext` of new rows to the store: a pid
already in `active` gets no new row, and a newly observed pid gets exactly
one new row carrying its observed name, the tick timestamp and no end. -/
theorem openPhase_newRows (now : Nat) :
    ∀ (seen : List (Int × String)) (st : DaemonState),
      ∃ ext, (openPhase now seen st).store = st.store ++ ext ∧
        (∀ p, activeHas st.active p = true →
          ext.filter (fun r => decide (r.pid = p)) = []) ∧
        (∀ p name, (seen.map Prod.fst).Nodup → (p, name) ∈ seen →
          activeHas st.active p = false →
          ∃ i, ext.filter (fun r => decide (r.pid = p)) =
            [{ id := i, path := name, pid := p, started := now, ended := none }]) := by
  intro seen
  induction seen with
  | nil =>
    intro st
    refine ⟨[], by simp [openPhase], fun p _ => rfl, fun p name _ hmem _ => absurd hmem (by simp)⟩
  | cons q rest ih =>
    intro st
    have hstep : openPhase now (q :: rest) st = openPhase now rest (openOne now st q) := rfl
    rw [hstep]
    by_cases h : activeHas st.active q.1 = true
    · rw [openOne_pos now st q h]
      obtain ⟨ext, he, hold, hnew⟩ := ih st
      refine ⟨ext, he, hold, ?_⟩
      intro p name hnd hmem hfalse
      rcases List.mem_cons.mp hmem with h1 | h2
      · exfalso
        have hp : p = q.1 := congrArg Prod.fst h1
        rw [hp, h] at hfalse
        cases hfalse
      · exact hnew p name (List.Nodup.of_cons (l := rest.map Prod.fst) hnd) h2 hfalse
    · obtain ⟨ext, he, hold, hnew⟩ := ih (openOne now st q)
      refine ⟨{ id := st.nextId, path := q.2, pid := q.1, started := now, ended := none } :: ext,
        ?_, ?_, ?_⟩
      · rw [he, openOne_neg_store now st q h, List.append_assoc]
        rfl
      · intro p hp
        have hqp : ¬(q.1 = p) := fun hx => h (hx ▸ hp)
        rw [List.filter_cons, if_neg (by simpa using hqp)]
        apply hold p
        rw [openOne_neg_active now st q h]
        simp only [activeHas, List.any_cons]
        simp only [activeHas] at hp
        rw [hp, Bool.or_true]
      · intro p name hnd hmem hfalse
        rcases List.mem_cons.mp hmem with h1 | h2
        · have hp : p = q.1 := congrArg Prod.fst h1
          have hn : name = q.2 := congrArg Prod.snd h1
          refine ⟨st.nextId, ?_⟩
          rw [List.filter_cons, if_pos (by simp [hp])]
          have hext : ext.filter (fun r => decide (r.pid = p)) = [] := by
            apply hold p
            rw [openOne_neg_active now st q h, hp]
            simp [activeHas]
          rw [hext, hp, hn]
        · have hpr : p ∈ rest.map Prod.fst := List.mem_map.mpr ⟨(p, name), h2, rfl⟩
          have hnd' := (List.nodup_cons (a := q.1) (l := rest.map Prod.fst)).mp hnd
          have hqp : ¬(q.1 = p) := fun hx => hnd'.1 (hx ▸ hpr)
          have hfalse' : activeHas (openOne now st q).active p = false := by
            rw [openOne_neg_active now st q h]
            simp only [activeHas, List.any_cons]
            simp only [activeHas] at hfalse
            rw [hfalse]
            simpa using hqp
          obtain ⟨i, hfi⟩ := hnew p name hnd'.2 h2 hfalse'
          refine ⟨i, ?_⟩
          rw [List.filter_cons, if_neg (by simpa using hqp)]
          exact hfi

/-! ### Close phase lemmas -/

theorem closeOne_pos (seen : List (Int × String)) (now : Nat) (st : DaemonState) (p : Int)
    (h : seenHas seen p = true) : closeOne seen now st p = st := by
  rw [closeOne, if_pos h]

theorem closeOne_neg_active (seen : List (Int × String)) (now : Nat) (st : DaemonState) (p : Int)
    (h : ¬ seenHas seen p = true) :
    (closeOne seen now st p).active = st.active.filter (fun e => decide (e.1 ≠ p)) := by
  rw [closeOne, if_neg h]

theorem closeOne_neg_store (seen : List (Int × String)) (now : Nat) (st : DaemonState) (p : Int)
    (h : ¬ seenHas seen p = true) :
    (closeOne seen now st p).store = closeSession p now st.store := by
  rw [closeOne, if_neg h]

theorem closeAll_nil (now : Nat) (s : List Session) : closeAll [] now s = s := by
  refine map_id_on _ s (fun r hr => ?_)
  rw [if_neg]
  intro hc
  exact (List.not_mem_nil r.pid) hc.1

theorem closeAll_closeSession (a : Int) (toClose : List Int) (now : Nat) (s : List Session) :
    closeAll toClose now (closeSession a now s) = closeAll (a :: toClose) now s := by
  rw [closeSession, closeAll, closeAll, List.map_map]
  apply map_congr_on
  intro r _
  simp only [Function.comp]
  by_cases h1 : r.pid = a <;> by_cases h2 : r.ended = none <;>
    by_cases h3 : r.pid ∈ toClose <;>
      simp [h1, h2, h3, List.mem_cons]

theorem foldl_closeOne_active (seen : List (Int × String)) (now : Nat) :
    ∀ (L : List Int) (st : DaemonState),
      (L.foldl (closeOne seen now) st).active =
        st.active.filter (fun e => seenHas seen e.1 || !decide (e.1 ∈ L)) := by
  intro L
  induction L with
  | nil =>
    intro st
    simp only [List.foldl_nil]
    refine (List.filter_eq_self.mpr ?_).symm
    intro e _
    simp
  | cons a L ih =>
    intro st
    simp only [List.foldl_cons]
    by_cases ha : seenHas seen a = true
    · rw [closeOne_pos seen now st a ha, ih st]
      apply List.filter_congr
      intro e _
      by_cases hp : e.1 = a
      · simp [hp, ha]
      · simp [hp, List.mem_cons]
    · have ha' : seenHas seen a = false := by simpa using ha
      rw [ih, closeOne_neg_active seen now st a ha, List.filter_filter]
      apply List.filter_congr
      intro e _
      by_cases hp : e.1 = a
      · simp [hp, ha']
      · simp [hp, List.mem_cons]

theorem foldl_closeOne_store (seen : List (Int × String)) (now : Nat) :
    ∀ (L : List Int) (st : DaemonState),
      (L.foldl (closeOne seen now) st).store =
        closeAll (L.filter (fun x => !seenHas seen x)) now st.store := by
  intro L
  induction L with
  | nil =>
    intro st
    simp only [List.foldl_nil, List.filter_nil]
    rw [closeAll_nil]
  | cons a L ih =>
    intro st
    simp only [List.foldl_cons]
    by_cases ha : seenHas seen a = true
    · rw [closeOne_pos seen now st a ha, ih st, List.filter_cons, if_neg (by simp [ha])]
    · have ha' : seenHas seen a = false := by simpa using ha
      rw [ih, closeOne_neg_store seen now st a ha, closeAll_closeSession,
        List.filter_cons, if_pos (by simp [ha'])]

theorem foldl_closeOne_nextId (seen : List (Int × String)) (now : Nat) :
    ∀ (L : List Int) (st : DaemonState),
      (L.foldl (closeOne seen now) st).nextId = st.nextId := by
  intro L
  induction L with
  | nil => intro st; rfl
  | cons a L ih =>
    intro st
    simp only [List.foldl_cons]
    rw [ih]
    by_cases ha : seenHas seen a = true
    · rw [closeOne_pos seen now st a ha]
    · rw [closeOne, if_neg ha]

/-! ### Combined tick lemmas -/

theorem tick_store_eq (seen : List (Int × String)) (now : Nat) (st : DaemonState) :
    (tick seen now st).store =
      closeAll (((openPhase now seen st).active.map Prod.fst).filter
        (fun x => !seenHas seen x)) now (openPhase now seen st).store := by
  rw [tick, closePhase, foldl_closeOne_store]

theorem tick_active_eq (seen : List (Int × String)) (now : Nat) (st : DaemonState) :
    (tick seen now st).active =
      (openPhase now seen st).active.filter (fun e => seenHas seen e.1) := by
  rw [tick, closePhase, foldl_closeOne_active]
  apply List.filter_congr
  intro e he
  have hm : e.1 ∈ (openPhase now seen st).active.map Prod.fst := List.mem_map.mpr ⟨e, he, rfl⟩
  simp [hm]

theorem any_seen_and (seen : List (Int × String)) :
    ∀ (l : List (Int × String × Nat)) (p : Int),
      (l.any fun e => seenHas seen e.1 && decide (e.1 = p)) =
        (seenHas seen p && activeHas l p) := by
  intro l
  induction l with
  | nil => intro p; simp [activeHas]
  | cons e t ih =>
    intro p
    simp only [List.any_cons]
    rw [ih]
    simp only [activeHas, List.any_cons]
    by_cases hp : e.1 = p
    · rw [hp]
      cases hs : seenHas seen p <;> simp [hs]
    · have hd : decide (e.1 = p) = false := by simpa using hp
      rw [hd]
      cases hs : seenHas seen p <;> simp [hs]

theorem tick_activeHas (seen : List (Int × String)) (now : Nat) (st : DaemonState) (p : Int) :
    activeHas (tick seen now st).active p = seenHas seen p := by
  rw [tick_active_eq, activeHas_filter, any_seen_and, activeHas_openPhase]
  cases hs : seenHas seen p <;> simp [hs]

/-! ### No-op lemmas for idempotence -/

theorem openPhase_noop (now : Nat) :
    ∀ (seen : List (Int × String)) (st : DaemonState),
      (∀ q ∈ seen, activeHas st.active q.1 = true) → openPhase now seen st = st := by
  intro seen
  induction seen with
  | nil => intro st _; rfl
  | cons q rest ih =>
    intro st h
    have hstep : openPhase now (q :: rest) st = openPhase now rest (openOne now st q) := rfl
    rw [hstep, openOne_pos now st q (h q (List.mem_cons_self q rest))]
    exact ih st (fun r hr => h r (List.mem_cons_of_mem q hr))

theorem foldl_closeOne_noop (seen : List (Int × String)) (now : Nat) :
    ∀ (L : List Int) (st : DaemonState), (∀ p ∈ L, seenHas seen p = true) →
      L.foldl (closeOne seen now) st = st := by
  intro L
  induction L with
  | nil => intro st _; rfl
  | cons a L ih =>
    intro st h
    simp only [List.foldl_cons]
    rw [closeOne_pos seen now st a (h a (List.mem_cons_self a L))]
    exact ih st (fun p hp => h p (List.mem_cons_of_mem a hp))

theorem closePhase_noop (now : Nat) (seen : List (Int × String)) (st : DaemonState)
    (h : ∀ e ∈ st.active, seenHas seen e.1 = true) : closePhase now seen st = st := by
  rw [closePhase]
  apply foldl_closeOne_noop
  intro p hp
  obtain ⟨e, he, rfl⟩ := List.mem_map.mp hp
  exact h e he

/-- C5 counterexample: on a store holding two open rows for pid 5, the
UPDATE of `closeSession` sets `ended` on BOTH rows, not only on the most
recent open one (the row started at 10); the claim's predicted result,
where only the most recent open row is mutated, is refuted. -/
theorem closeSession_not_only_most_recent :
    closeSession 5 100 [⟨0, "game", 5, 3, none⟩, ⟨1, "game", 5, 10, none⟩] =
      [⟨0, "game", 5, 3, some 100⟩, ⟨1, "game", 5, 10, some 100⟩] ∧
    closeSession 5 100 [⟨0, "game", 5, 3, none⟩, ⟨1, "game", 5, 10, none⟩] ≠
      [⟨0, "game", 5, 3, none⟩, ⟨1, "game", 5, 10, some 100⟩] := by
  exact ⟨by decide, by decide⟩

/-- C5 (amended): `closeSession pid now` sets `ended_at = now` on every
row for that pid with `ended_at` absent (hence on the most recent open one
when at most one is open), leaves every other row exactly as it was, and
when no open session for the pid exists it changes no row and raises no
error. -/
theorem closeSession_updates_exactly_open_rows (store : List Session) (p : Int) (now : Nat) :
    (closeSession p now store).length = store.length ∧
    (∀ i r, store.get? i = some r →
      (closeSession p now store).get? i =
        some (if r.pid = p ∧ r.ended = none then { r with ended := some now } else r)) ∧
    (openCount store p = 0 → closeSession p now store = store) := by
  refine ⟨List.length_map _ _, ?_, ?_⟩
  · intro i r hr
    simp only [closeSession, List.get?_map, hr]
    rfl
  · intro h0
    have hnil : store.filter (fun r => decide (r.pid = p ∧ r.ended = none)) = [] :=
      List.eq_nil_of_length_eq_zero h0
    have hall := List.filter_eq_nil_iff.mp hnil
    refine map_id_on _ store (fun r hr => ?_)
    have : ¬(r.pid = p ∧ r.ended = none) := by
      have := hall r hr
      simpa using this
    simp [this]

/-- C5 witness: a store with one already-closed row for pid 5 is left
untouched by a close of pid 5 (row unchanged) and a close of pid 7
(no open session: no-op). -/
theorem closeSession_updates_exactly_open_rows_witness :
    (closeSession 5 100 [⟨0, "game", 5, 3, some 4⟩]).get? 0 = some ⟨0, "game", 5, 3, some 4⟩ ∧
    closeSession 7 100 [⟨0, "game", 5, 3, some 4⟩] = [⟨0, "game", 5, 3, some 4⟩] := by
  constructor
  · have h := (closeSession_updates_exactly_open_rows [⟨0, "game", 5, 3, some 4⟩] 5 100).2.1
      0 ⟨0, "game", 5, 3, some 4⟩ rfl
    simpa using h
  · exact (closeSession_updates_exactly_open_rows [⟨0, "game", 5, 3, some 4⟩] 7 100).2.2 (by decide)

/-! ### C7: report formatting -/

/-- C7: for every non-negative total `S` the report splits it with integer
division and remainder as hours `S/3600`, minutes `(S%3600)/60`, seconds
`S%60`; in particular 3661 seconds print as 1h 1m 1s. -/
theorem format_hms_correct :
    (∀ S : Nat, format_hms (S : Int) =
      (((S / 3600 : Nat) : Int), (((S % 3600) / 60 : Nat) : Int), ((S % 60 : Nat) : Int))) ∧
    format_hms 3661 = (1, 1, 1) := by
  exact ⟨fun S => rfl, by decide⟩

/-! ### C9: CLI dispatch -/

/-- C9: the report path is selected exactly when the first command-line
argument (index 1, after the program name) is the literal string
"report"; every other argument vector, including misspellings and extra
arguments, takes the daemon branch of `main`, the same branch as the
no-argument case. -/
theorem selectsReport_iff (args : List String) :
    selectsReport args = true ↔ args.get? 1 = some "report" := by
  match args with
  | [] => simp [selectsReport]
  | [a] => simp [selectsReport]
  | a :: b :: t =>
    have h1 : (a :: b :: t).length > 1 := by
      simp only [List.length_cons]
      omega
    simp [selectsReport, List.getD, h1, beq_iff_eq]

/-! ### C8: a failed store write aborts the whole tick -/

/-- C8: the code contradicts the spec's failure semantics.  With two new
pids (1, "a") and (2, "b") in one tick and the INSERT for pid 1 failing,
the `.unwrap()` panic aborts the whole iteration (`none`): pid 2 is never
opened.  Without the failure the same tick opens both pids (rows for pids
1 and 2), which is what the claim requires even when pid 1's write
fails. -/
theorem failed_write_aborts_whole_tick :
    tickF [1] [(1, "a"), (2, "b")] 100 st0 = none ∧
    tickF [] [(1, "a"), (2, "b")] 100 st0 = some (tick [(1, "a"), (2, "b")] 100 st0) ∧
    (tick [(1, "a"), (2, "b")] 100 st0).store.map Session.pid = [1, 2] := by
  exact ⟨rfl, rfl, rfl⟩

/-! ### C4: idempotence of tick -/

/-- C4: running `tick` a second time with the same observation set is a
no-op: neither the `active` table, nor the store, nor the id counter
change, whatever the timestamp of the second tick. -/
theorem tick_idempotent (seen : List (Int × String)) (now1 now2 : Nat) (st : DaemonState) :
    tick seen now2 (tick seen now1 st) = tick seen now1 st := by
  have hop : openPhase now2 seen (tick seen now1 st) = tick seen now1 st := by
    apply openPhase_noop
    intro q hq
    rw [tick_activeHas]
    exact seenHas_of_mem seen q hq
  rw [tick, hop]
  apply closePhase_noop
  intro e he
  have h1 : activeHas (tick seen now1 st).active e.1 = true := activeHas_of_mem _ e he
  rw [tick_activeHas] at h1
  exact h1

/-! ### C10: after a tick the table keys are the observed pids -/

/-- C10: after a completed tick the key set of the `active` table is
exactly the set of observed pids: a pid is a key iff it occurs in the
tick's observation set. -/
theorem table_keys_equal_observed (seen : List (Int × String)) (now : Nat)
    (st : DaemonState) (p : Int) :
    activeHas (tick seen now st).active p = seenHas seen p :=
  tick_activeHas seen now st p

/-! ### C1: open events -/

theorem closeAll_pid_eq (toClose : List Int) (now : Nat) (r : Session) :
    (if r.pid ∈ toClose ∧ r.ended = none then { r with ended := some now } else r).pid
      = r.pid := by
  split <;> rfl

theorem filter_pid_map (f : Session → Session) (hf : ∀ r, (f r).pid = r.pid) (p : Int) :
    ∀ l : List Session, (l.map f).filter (fun r => decide (r.pid = p)) =
      (l.filter (fun r => decide (r.pid = p))).map f := by
  intro l
  induction l with
  | nil => rfl
  | cons r t ih =>
    simp only [List.map_cons, List.filter_cons, hf]
    by_cases hp : r.pid = p
    · rw [if_pos (by simpa using hp), if_pos (by simpa using hp), List.map_cons, ih]
    · rw [if_neg (by simpa using hp), if_neg (by simpa using hp), ih]

theorem closeAll_filter_pid (toClose : List Int) (now : Nat) (p : Int) (l : List Session) :
    (closeAll toClose now l).filter (fun r => decide (r.pid = p)) =
      (l.filter (fun r => decide (r.pid = p))).map
        (fun r => if r.pid ∈ toClose ∧ r.ended = none then { r with ended := some now }
                  else r) :=
  filter_pid_map _ (fun r => closeAll_pid_eq toClose now r) p l

theorem tick_store_drop (seen : List (Int × String)) (now : Nat) (st : DaemonState) :
    ∃ ext, (openPhase now seen st).store = st.store ++ ext ∧
      (∀ r ∈ ext, r.started = now ∧ r.ended = none ∧ seenHas seen r.pid = true) ∧
      (tick seen now st).store.drop st.store.length =
        closeAll (((openPhase now seen st).active.map Prod.fst).filter
          (fun x => !seenHas seen x)) now ext := by
  obtain ⟨ext, he, hprops⟩ := openPhase_store_ext now seen st
  refine ⟨ext, he, hprops, ?_⟩
  rw [tick_store_eq, he]
  exact drop_map_append _ _ _

/-- C1: within one tick, every observed pid that is not yet a key of the
`active` table gets exactly one new store row carrying its observed name,
the tick's timestamp and no `ended_at`, and is inserted into the table;
a pid already in the table gets no new row. -/
theorem open_creates_one_session_per_new_pid (seen : List (Int × String)) (now : Nat)
    (st : DaemonState) (hnd : (seen.map Prod.fst).Nodup) :
    (∀ p name, (p, name) ∈ seen → activeHas st.active p = false →
      (∃ i, ((tick seen now st).store.drop st.store.length).filter
          (fun r => decide (r.pid = p)) =
        [{ id := i, path := name, pid := p, started := now, ended := none }]) ∧
      activeHas (tick seen now st).active p = true) ∧
    (∀ p, activeHas st.active p = true →
      ((tick seen now st).store.drop st.store.length).filter
        (fun r => decide (r.pid = p)) = []) := by
  obtain ⟨ext, he, hprops, hdrop⟩ := tick_store_drop seen now st
  obtain ⟨ext2, he2, hold2, hnew2⟩ := openPhase_newRows now seen st
  have hee : ext2 = ext := by
    have h12 := he2.symm.trans he
    exact List.append_cancel_left h12
  rw [hee] at hold2 hnew2
  constructor
  · intro p name hmem hfalse
    refine ⟨?_, ?_⟩
    · obtain ⟨i, hfi⟩ := hnew2 p name hnd hmem hfalse
      refine ⟨i, ?_⟩
      rw [hdrop, closeAll_filter_pid, hfi]
      have hsp : seenHas seen p = true := seenHas_of_mem seen (p, name) hmem
      simp [List.mem_filter, hsp]
    · rw [tick_activeHas]
      exact seenHas_of_mem seen (p, name) hmem
  · intro p hold
    rw [hdrop, closeAll_filter_pid, hold2 p hold]
    rfl

/-- C1 witness: from the empty start state, the tick observing only
(pid 5, "game") creates exactly one new row for pid 5 with the observed
name, the tick timestamp and no end, and records pid 5 in the table. -/
theorem open_creates_one_session_per_new_pid_witness :
    (∃ i, ((tick [(5, "game")] 100 st0).store.drop st0.store.length).filter
        (fun r => decide (r.pid = 5)) =
      [{ id := i, path := "game", pid := 5, started := 100, ended := none }]) ∧
    activeHas (tick [(5, "game")] 100 st0).active 5 = true :=
  (open_creates_one_session_per_new_pid [(5, "game")] 100 st0 (by decide)).1
    5 "game" (by decide) (by decide)

/-! ### C2: close events -/

/-- C2 counterexample: the table entry for pid 5 mirrors the session
started at 10, yet a tick that no longer observes pid 5 also mutates the
other (orphaned) row for pid 5 started at 3 — such a state arises when a
daemon restart leaves an open row behind and the pid is then re-observed.
The claim allows only the corresponding session to be modified; here two
rows are modified. -/
theorem close_modifies_second_row_for_pid :
    (tick [] 100
        ⟨[(5, "game", 10)], [⟨0, "game", 5, 3, none⟩, ⟨1, "game", 5, 10, none⟩], 2⟩).store =
      [⟨0, "game", 5, 3, some 100⟩, ⟨1, "game", 5, 10, some 100⟩] ∧
    (⟨0, "game", 5, 3, some 100⟩ : Session) ≠ ⟨0, "game", 5, 3, none⟩ := by
  exact ⟨by decide, by decide⟩

theorem activeHas_iff_mem_map (l : List (Int × String × Nat)) (p : Int) :
    activeHas l p = true ↔ p ∈ l.map Prod.fst := by
  rw [activeHas, List.any_eq_true]
  constructor
  · rintro ⟨e, he, hd⟩
    exact List.mem_map.mpr ⟨e, he, by simpa using hd⟩
  · rintro hm
    obtain ⟨e, he, rfl⟩ := List.mem_map.mp hm
    exact ⟨e, he, by simp⟩

/-- C2 (amended): when a pid is a key of the table but absent from the
observation set, the tick removes it from the table and sets
`ended_at = now` on every store row for that pid lacking `ended_at`
(exactly the corresponding session when at most one is open, but all of
them when an orphaned open row also exists); rows for that pid with
`ended_at` already set are unchanged, and no new row for that pid
appears. -/
theorem close_sets_ended_and_removes_pid (seen : List (Int × String)) (now : Nat)
    (st : DaemonState) (p : Int)
    (hin : activeHas st.active p = true) (hout : seenHas seen p = false) :
    activeHas (tick seen now st).active p = false ∧
    (∀ i r, st.store.get? i = some r → r.pid = p →
      (tick seen now st).store.get? i =
        some (if r.ended = none then { r with ended := some now } else r)) ∧
    (∀ r ∈ (tick seen now st).store.drop st.store.length, r.pid ≠ p) := by
  obtain ⟨ext, he, hprops, hdrop⟩ := tick_store_drop seen now st
  have hmT : p ∈ ((openPhase now seen st).active.map Prod.fst).filter
      (fun x => !seenHas seen x) := by
    apply List.mem_filter.mpr
    constructor
    · apply (activeHas_iff_mem_map _ p).mp
      rw [activeHas_openPhase, hin, Bool.true_or]
    · rw [hout]
      rfl
  refine ⟨by rw [tick_activeHas]; exact hout, ?_, ?_⟩
  · intro i r hr hrp
    have hi : i < st.store.length := by
      obtain ⟨hlt, -⟩ := List.get?_eq_some.mp hr
      exact hlt
    rw [tick_store_eq, he]
    rw [show closeAll (((openPhase now seen st).active.map Prod.fst).filter
        (fun x => !seenHas seen x)) now (st.store ++ ext) =
      closeAll (((openPhase now seen st).active.map Prod.fst).filter
        (fun x => !seenHas seen x)) now st.store ++
      closeAll (((openPhase now seen st).active.map Prod.fst).filter
        (fun x => !seenHas seen x)) now ext from List.map_append _ _ _]
    rw [List.get?_append (by rw [closeAll, List.length_map]; exact hi)]
    rw [closeAll, List.get?_map, hr]
    by_cases hre : r.ended = none
    · simp [hrp, hre, hmT]
    · simp [hrp, hre]
  · intro r hr
    rw [hdrop] at hr
    rw [closeAll] at hr
    obtain ⟨r0, hr0, rfl⟩ := List.mem_map.mp hr
    rw [closeAll_pid_eq]
    intro hrp
    have hs := (hprops r0 hr0).2.2
    rw [hrp, hout] at hs
    cases hs

/-- C2 witness: pid 5 is open in the table (one open row, started 3) and
vanishes from the observation: its row gets `ended_at` 9 and the pid
leaves the table. -/
theorem close_sets_ended_and_removes_pid_witness :
    activeHas (tick [] 9 ⟨[(5, "g", 3)], [⟨0, "g", 5, 3, none⟩], 1⟩).active 5 = false ∧
    (tick [] 9 ⟨[(5, "g", 3)], [⟨0, "g", 5, 3, none⟩], 1⟩).store.get? 0 =
      some ⟨0, "g", 5, 3, some 9⟩ := by
  have h := close_sets_ended_and_removes_pid [] 9
    ⟨[(5, "g", 3)], [⟨0, "g", 5, 3, none⟩], 1⟩ 5 (by decide) (by decide)
  refine ⟨h.1, ?_⟩
  have h2 := h.2.1 0 ⟨0, "g", 5, 3, none⟩ rfl rfl
  simpa using h2

/-! ### C3: the at-most-one-open invariant -/

/-- C3 counterexample: a daemon start state whose store holds one orphaned
open row for pid 5 (at most one open row per pid, so the claimed invariant
holds) while the freshly built table is empty; the very next open issued
by the tracker for the re-observed pid 5 leaves TWO open rows for pid 5,
so the invariant is not preserved by every open the tracker issues. -/
theorem open_breaks_at_most_one_open :
    openCount ((⟨[], [⟨0, "game", 5, 3, none⟩], 1⟩ : DaemonState)).store 5 = 1 ∧
    openCount (tick [(5, "game")] 100 ⟨[], [⟨0, "game", 5, 3, none⟩], 1⟩).store 5 = 2 := by
  exact ⟨by decide, by decide⟩

theorem openCount_nil (p : Int) : openCount [] p = 0 := rfl

theorem openCount_cons (r : Session) (t : List Session) (p : Int) :
    openCount (r :: t) p = (if r.pid = p ∧ r.ended = none then 1 else 0) + openCount t p := by
  rw [openCount, List.filter_cons]
  by_cases h : r.pid = p ∧ r.ended = none
  · rw [if_pos (by simpa using h), if_pos h, List.length_cons]
    rw [openCount, Nat.add_comm]
  · rw [if_neg (by simpa using h), if_neg h, openCount, Nat.zero_add]

theorem openCount_append (a b : List Session) (p : Int) :
    openCount (a ++ b) p = openCount a p + openCount b p := by
  rw [openCount, openCount, openCount, List.filter_append, List.length_append]

theorem openCount_closeSession (q : Int) (now : Nat) :
    ∀ (s : List Session) (p : Int),
      openCount (closeSession q now s) p = if p = q then 0 else openCount s p := by
  intro s
  induction s with
  | nil =>
    intro p
    rw [closeSession, List.map_nil, openCount_nil]
    split <;> rfl
  | cons r t ih =>
    intro p
    rw [closeSession, List.map_cons]
    rw [show (List.map (fun r => if r.pid = q ∧ r.ended = none
        then { r with ended := some now } else r) t) = closeSession q now t from rfl]
    rw [openCount_cons, openCount_cons, ih p]
    by_cases h1 : r.pid = q ∧ r.ended = none
    · rw [if_pos h1]
      have hA : ¬(({ r with ended := some now } : Session).pid = p ∧
          ({ r with ended := some now } : Session).ended = none) := by simp
      rw [if_neg hA]
      by_cases h3 : p = q
      · rw [if_pos h3, if_pos h3]
      · rw [if_neg h3, if_neg h3,
          if_neg (fun hc => h3 (hc.1.symm.trans h1.1))]
    · rw [if_neg h1]
      by_cases h3 : p = q
      · rw [if_pos h3, if_pos h3,
          if_neg (fun hc => h1 ⟨hc.1.trans h3, hc.2⟩)]
      · rw [if_neg h3, if_neg h3]

theorem activeHas_filter_ne (a p : Int) :
    ∀ l : List (Int × String × Nat),
      activeHas (l.filter (fun e => decide (e.1 ≠ a))) p =
        if p = a then false else activeHas l p := by
  intro l
  induction l with
  | nil =>
    rw [List.filter_nil]
    split <;> rfl
  | cons e t ih =>
    rw [List.filter_cons]
    by_cases hx : e.1 = a
    · rw [if_neg (by simpa using hx), ih]
      by_cases hp : p = a
      · rw [if_pos hp, if_pos hp]
      · rw [if_neg hp, if_neg hp]
        have hep : ¬(e.1 = p) := fun hc => hp (hc.symm.trans hx)
        simp [activeHas, List.any_cons, hep]
    · rw [if_pos (by simpa using hx)]
      have hstep : activeHas (e :: t.filter (fun e => decide (e.1 ≠ a))) p =
          (decide (e.1 = p) || activeHas (t.filter (fun e => decide (e.1 ≠ a))) p) := by
        simp [activeHas, List.any_cons]
      rw [hstep, ih]
      by_cases hp : p = a
      · rw [if_pos hp, if_pos hp]
        have hep : decide (e.1 = p) = false := by
          have hne : ¬(e.1 = p) := fun hc => hx (hc.trans hp)
          simpa using hne
        rw [hep]
        rfl
      · rw [if_neg hp, if_neg hp]
        simp [activeHas, List.any_cons]

theorem mirrors_openOne (now : Nat) (st : DaemonState) (q : Int × String)
    (h : mirrors st) : mirrors (openOne now st q) := by
  by_cases hq : activeHas st.active q.1 = true
  · rw [openOne_pos now st q hq]
    exact h
  · have hqf : activeHas st.active q.1 = false := by simpa using hq
    intro p
    rw [openOne_neg_store now st q hq, openOne_neg_active now st q hq]
    rw [openCount_append]
    by_cases hp : q.1 = p
    · have hactive : activeHas ((q.1, q.2, now) :: st.active) p = true := by
        simp [activeHas, List.any_cons, hp]
      rw [if_pos hactive]
      have h0 : openCount st.store p = 0 := by
        rw [h p, if_neg (by rw [← hp, hqf]; simp)]
      have hone : openCount [{ id := st.nextId, path := q.2, pid := q.1, started := now, ended := none }] p = 1 := by
        rw [openCount_cons, openCount_nil, if_pos ⟨hp, rfl⟩]
      rw [h0, hone]
    · have hactive : activeHas ((q.1, q.2, now) :: st.active) p = activeHas st.active p := by
        simp [activeHas, List.any_cons, hp]
      have hzero : openCount [{ id := st.nextId, path := q.2, pid := q.1, started := now, ended := none }] p = 0 := by
        rw [openCount_cons, openCount_nil, if_neg (fun hc => hp hc.1)]
      rw [hactive, hzero, Nat.add_zero]
      exact h p

theorem mirrors_closeOne (seen : List (Int × String)) (now : Nat) (st : DaemonState) (a : Int)
    (h : mirrors st) : mirrors (closeOne seen now st a) := by
  by_cases ha : seenHas seen a = true
  · rw [closeOne_pos seen now st a ha]
    exact h
  · intro p
    rw [closeOne_neg_store seen now st a ha, closeOne_neg_active seen now st a ha]
    rw [openCount_closeSession, activeHas_filter_ne]
    by_cases hp : p = a
    · rw [if_pos hp, if_pos hp]
      rfl
    · rw [if_neg hp, if_neg hp]
      exact h p

theorem foldl_preserves {α : Type _} (P : DaemonState → Prop) (f : DaemonState → α → DaemonState)
    (hf : ∀ st a, P st → P (f st a)) :
    ∀ (L : List α) (st : DaemonState), P st → P (L.foldl f st) := by
  intro L
  induction L with
  | nil => intro st h; exact h
  | cons a t ih =>
    intro st h
    exact ih (f st a) (hf st a h)

theorem mirrors_tick (seen : List (Int × String)) (now : Nat) (st : DaemonState)
    (h : mirrors st) : mirrors (tick seen now st) := by
  rw [tick, closePhase]
  apply foldl_preserves mirrors (closeOne seen now)
    (fun s a hs => mirrors_closeOne seen now s a hs)
  rw [openPhase]
  apply foldl_preserves mirrors (openOne now) (fun s q hs => mirrors_openOne now s q hs)
  exact h

/-- C3 (amended): the at-most-one-open invariant holds and is preserved
by every tick PROVIDED the table mirrors the store's open rows (one open
row per table key, none otherwise) — as is the case throughout a run
started with an empty store.  From a store holding an orphaned open row
whose pid is not in the table (a daemon restart), an open for that pid
creates a second open row. -/
theorem at_most_one_open_of_mirrors (seen : List (Int × String)) (now : Nat)
    (st : DaemonState) (h : mirrors st) :
    (∀ p, openCount st.store p ≤ 1) ∧ mirrors (tick seen now st) ∧
    (∀ p, openCount (tick seen now st).store p ≤ 1) := by
  have hm := mirrors_tick seen now st h
  refine ⟨fun p => ?_, hm, fun p => ?_⟩
  · rw [h p]
    split <;> omega
  · rw [hm p]
    split <;> omega

/-- C3 witness: the empty start state mirrors its (empty) store, and after
one tick opening pid 5 the store still has at most one open row for
pid 5. -/
theorem at_most_one_open_of_mirrors_witness :
    openCount (tick [(5, "game")] 100 st0).store 5 ≤ 1 := by
  have hm : mirrors st0 := fun p => rfl
  exact (at_most_one_open_of_mirrors [(5, "game")] 100 st0 hm).2.2 5

/-! ### C6: aggregation correctness -/

theorem lookupTotal_map_key (f : String → Int) :
    ∀ (names : List String) (n : String),
      lookupTotal (names.map (fun m => (m, f m))) n =
        if n ∈ names then some (f n) else none := by
  intro names
  induction names with
  | nil =>
    intro n
    rw [List.map_nil, lookupTotal, List.find?_nil, if_neg (by simp)]
    rfl
  | cons m t ih =>
    intro n
    rw [List.map_cons, lookupTotal]
    by_cases h : m = n
    · rw [List.find?_cons_of_pos _ (by simpa using h)]
      rw [if_pos (by rw [h]; exact List.mem_cons_self n t)]
      rw [h]
      rfl
    · rw [List.find?_cons_of_neg _ (by simpa using h)]
      rw [show (List.find? (fun e => decide (e.1 = n)) (t.map (fun m => (m, f m)))).map Prod.snd
        = lookupTotal (t.map (fun m => (m, f m))) n from rfl]
      rw [ih n]
      by_cases hm : n ∈ t
      · rw [if_pos hm, if_pos (List.mem_cons_of_mem m hm)]
      · rw [if_neg hm, if_neg (by intro hc; rcases List.mem_cons.mp hc with h1 | h2
                                  · exact h h1.symm
                                  · exact hm h2)]

/-- C6: the report returns, for each program name, exactly the sum of
(ended − started) over the rows with that name whose `ended_at` is
present (`closedTotal`, transcribed from the spec), and a name with no
closed row is absent from the report; appending an open row changes
nothing. -/
theorem aggregate_totals_correct (store : List Session) (n : String) :
    (lookupTotal (aggregate_totals store) n =
      if store.any (fun r => decide (r.path = n ∧ r.ended ≠ none)) = true
      then some (closedTotal store n) else none) ∧
    (∀ r : Session, r.ended = none →
      aggregate_totals (store ++ [r]) = aggregate_totals store) := by
  constructor
  · rw [aggregate_totals, lookupTotal_map_key]
    have hval : (((closedRows store).filter (fun r => decide (r.path = n))).map duration).sum
        = closedTotal store n := by
      have hfil : (closedRows store).filter (fun r => decide (r.path = n)) =
          store.filter (fun r => decide (r.path = n ∧ r.ended ≠ none)) := by
        rw [closedRows, List.filter_filter]
        apply List.filter_congr
        intro r _
        by_cases h1 : r.path = n <;> by_cases h2 : r.ended = none <;> simp [h1, h2]
      rw [closedTotal, hfil]
    have hcond : (n ∈ ((closedRows store).map (fun r => r.path)).dedup) ↔
        (store.any (fun r => decide (r.path = n ∧ r.ended ≠ none)) = true) := by
      rw [List.mem_dedup, List.mem_map, List.any_eq_true]
      constructor
      · rintro ⟨r, hr, rfl⟩
        rw [closedRows] at hr
        obtain ⟨hrs, hre⟩ := List.mem_filter.mp hr
        exact ⟨r, hrs, by simpa using of_decide_eq_true hre⟩
      · rintro ⟨r, hr, hd⟩
        obtain ⟨h1, h2⟩ := of_decide_eq_true hd
        refine ⟨r, ?_, h1⟩
        rw [closedRows]
        exact List.mem_filter.mpr ⟨hr, by simpa using h2⟩
    by_cases hc : store.any (fun r => decide (r.path = n ∧ r.ended ≠ none)) = true
    · rw [if_pos hc, if_pos (hcond.mpr hc), hval]
    · rw [if_neg hc, if_neg (fun hm => hc (hcond.mp hm))]
  · intro r hre
    rw [aggregate_totals, aggregate_totals, closedRows, List.filter_append]
    rw [show List.filter (fun r => decide (r.ended ≠ none)) [r] = [] from by
      simp [hre]]
    rw [List.append_nil]
    rfl

/-- C6 witness: appending an open row (pid 7, no end) to a store with one
closed "game" session leaves the aggregate report unchanged. -/
theorem aggregate_totals_correct_witness :
    aggregate_totals ([⟨0, "game", 5, 3, some 10⟩] ++ [⟨1, "game", 7, 2, none⟩]) =
      aggregate_totals [⟨0, "game", 5, 3, some 10⟩] :=
  (aggregate_totals_correct [⟨0, "game", 5, 3, some 10⟩] "game").2 ⟨1, "game", 7, 2, none⟩ rfl

end ProcPlay
